import Mathlib

/-!
Shallow embedding of the lexical scanner in `src/src/scan/scan3.rs`
(a tokenizer for a small Pascal-like language), together with proofs
of the specified properties.

The source text is modelled as a `List Char`; the cursor
(`Peekable<Chars>`) is the remaining suffix of that list.  Byte
lengths (`str::len`) are modelled with `Char.utf8Size`.  The one
fallible operation, `buf.parse::<u32>().unwrap()` (which panics on
overflow), is modelled by returning `Option`, `none` standing for the
panic; `none` propagates through `read_next_token` and `analyze`.
-/

namespace Scan3

/-- The single-quote character `'` (codepoint 39), written via
`Char.ofNat` to keep the file free of quote-escape literals. -/
def squote : Char := Char.ofNat 39

/-- Token kinds, mirroring `enum Kind` in the source (field for field). -/
inductive Kind where
  | Eof
  | Name
  | UnsignedInteger
  | String
  | Program
  | Var
  | Array
  | Of
  | Begin
  | End
  | If
  | Then
  | Else
  | Procedure
  | Return
  | Call
  | While
  | DO
  | Not
  | Or
  | Div
  | And
  | Char
  | Integer
  | Boolean
  | Read
  | Write
  | Readln
  | Writeln
  | True
  | False
  | Break
  | Plus
  | Minus
  | Star
  | Equal
  | NotEq
  | Less
  | LessEq
  | Great
  | GreatEq
  | LParen
  | RParen
  | LBracket
  | RBracket
  | Assign
  | Dot
  | Comma
  | Colon
  | Semicolon
  | Unknown
  deriving DecidableEq, Repr

/-- Token payload, mirroring `enum TokenValue` (the Rust `String`
payload is modelled as `List Char`, `u32` as a `Nat` that the scanner
only ever fills with values `≤ u32::MAX`). -/
inductive TokenValue where
  | none
  | Integer (n : Nat)
  | String (s : List Char)
  deriving DecidableEq, Repr

/-- A token, mirroring `struct Token` (`end` is a Lean keyword, so the
field is called `endPos`). -/
structure Token where
  kind : Kind
  start : Nat
  endPos : Nat
  value : TokenValue
  deriving DecidableEq, Repr

/-- The byte length of the UTF-8 encoding of a character sequence;
models `str::len` of the corresponding Rust string. -/
def utf8Len (l : List Char) : Nat := (l.map Char.utf8Size).sum

/-- The UTF-8 encoding itself, one `Nat` per byte (used to talk about
byte ranges of the source in theorem statements). -/
def utf8BytesChar (c : Char) : List Nat :=
  let n := c.toNat
  if n < 128 then [n]
  else if n < 2048 then [192 + n / 64, 128 + n % 64]
  else if n < 65536 then [224 + n / 4096, 128 + n / 64 % 64, 128 + n % 64]
  else [240 + n / 262144, 128 + n / 4096 % 64, 128 + n / 64 % 64, 128 + n % 64]

/-- UTF-8 encoding of a character list, one `Nat` per byte. -/
def utf8Bytes (l : List Char) : List Nat := (l.map utf8BytesChar).flatten

/-- The character class `'a'..='z' | 'A'..='Z'` used by the dispatcher
and the identifier scanner. -/
def isAsciiLetter (c : Char) : Bool :=
  ('a' ≤ c && c ≤ 'z') || ('A' ≤ c && c ≤ 'Z')

/-- The character class `'0'..='9'`. -/
def isAsciiDigit (c : Char) : Bool := '0' ≤ c && c ≤ '9'

/-- The class `'a'..='z' | 'A'..='Z' | '0'..='9'` consumed by the
identifier/keyword loop. -/
def isAlnumChar (c : Char) : Bool := isAsciiLetter c || isAsciiDigit c

/-- The separator class of `read_next_token`:
`' ' | '\t' | '\n' | '\r' | '{' | '/'`. -/
def isSep (c : Char) : Bool :=
  c == ' ' || c == '\t' || c == '\n' || c == '\r' || c == '{' || c == '/'

/-- Table `SYMBOLS_LEN_1`: the symbols that are already complete after one
character. -/
def SYMBOLS_LEN_1 (s : List Char) : Bool :=
  s == ['+'] || s == ['-'] || s == ['*'] || s == ['='] || s == ['('] ||
  s == [')'] || s == ['['] || s == [']'] || s == ['.'] || s == [','] ||
  s == [';']

/-- The closed keyword table of `match_keyword` (word → keyword kind),
in source order. -/
def KEYWORD_TABLE : List (List Char × Kind) :=
  [("program".data, Kind.Program), ("var".data, Kind.Var),
   ("array".data, Kind.Array), ("of".data, Kind.Of),
   ("begin".data, Kind.Begin), ("end".data, Kind.End),
   ("if".data, Kind.If), ("then".data, Kind.Then),
   ("else".data, Kind.Else), ("procedure".data, Kind.Procedure),
   ("return".data, Kind.Return), ("call".data, Kind.Call),
   ("while".data, Kind.While), ("do".data, Kind.DO),
   ("not".data, Kind.Not), ("or".data, Kind.Or),
   ("div".data, Kind.Div), ("and".data, Kind.And),
   ("char".data, Kind.Char), ("integer".data, Kind.Integer),
   ("boolean".data, Kind.Boolean), ("read".data, Kind.Read),
   ("write".data, Kind.Write), ("readln".data, Kind.Readln),
   ("writeln".data, Kind.Writeln), ("true".data, Kind.True),
   ("false".data, Kind.False), ("break".data, Kind.Break)]

/-- Function `match_keyword`: keyword classification; texts of byte length 1 or
more than 10 are never keywords, everything else is looked up in the
closed keyword table, defaulting to `Name`. -/
def match_keyword (ident : List Char) : Kind :=
  if utf8Len ident = 1 ∨ utf8Len ident > 10 then Kind.Name
  else (KEYWORD_TABLE.lookup ident).getD Kind.Name

/-- The closed symbol table of `match_symbol` (text → symbol kind), in
source order. -/
def SYMBOL_TABLE : List (List Char × Kind) :=
  [("+".data, Kind.Plus), ("-".data, Kind.Minus), ("*".data, Kind.Star),
   ("=".data, Kind.Equal), ("<>".data, Kind.NotEq), ("<".data, Kind.Less),
   ("<=".data, Kind.LessEq), (">".data, Kind.Great), (">=".data, Kind.GreatEq),
   ("(".data, Kind.LParen), (")".data, Kind.RParen),
   ("[".data, Kind.LBracket), ("]".data, Kind.RBracket),
   (":=".data, Kind.Assign), (".".data, Kind.Dot), (",".data, Kind.Comma),
   (":".data, Kind.Colon), (";".data, Kind.Semicolon)]

/-- Function `match_symbol`: operator/punctuation classification, a lookup in
the closed symbol table defaulting to `Unknown`. -/
def match_symbol (symbol : List Char) : Kind :=
  (SYMBOL_TABLE.lookup symbol).getD Kind.Unknown

/-- Models `Lexer::comment_brace`: discard characters up to and including the
next `}` (or to end of input). -/
def comment_brace : List Char → List Char
  | [] => []
  | c :: cs => if c = '}' then cs else comment_brace cs

/-- The 3-state machine of `Lexer::comment_slashstar`. -/
inductive CState where
  | Slash
  | Star
  | Other
  deriving DecidableEq, Repr

/-- The loop body of `Lexer::comment_slashstar`. -/
def comment_slashstar_go : CState → List Char → List Char
  | _, [] => []
  | CState.Slash, c :: cs =>
      if c = '*' then comment_slashstar_go CState.Star cs
      else comment_slashstar_go CState.Slash cs
  | CState.Star, c :: cs =>
      if c = '/' then cs
      else if c = '*' then comment_slashstar_go CState.Star cs
      else comment_slashstar_go CState.Other cs
  | CState.Other, c :: cs =>
      if c = '*' then comment_slashstar_go CState.Star cs
      else comment_slashstar_go CState.Other cs

/-- Models `Lexer::comment_slashstar`: hunt for the closing `*/`. -/
def comment_slashstar (cs : List Char) : List Char :=
  comment_slashstar_go CState.Slash cs

/-- Models `Lexer::comment`: dispatch on the already-consumed separator. -/
def comment (c : Char) (cs : List Char) : List Char :=
  if c = '{' then comment_brace cs
  else if c = '/' then comment_slashstar cs
  else cs

/-- The accumulation loop of `Lexer::name_keyword`. -/
def name_keyword_go (buf : List Char) : List Char → List Char × List Char
  | [] => (buf, [])
  | c :: cs =>
      if isAlnumChar c then name_keyword_go (buf ++ [c]) cs
      else (buf, c :: cs)

/-- Models `Lexer::name_keyword`: scan a maximal letter/digit run and classify
it. -/
def name_keyword (c : Char) (cs : List Char) :
    (Kind × TokenValue) × List Char :=
  let p := name_keyword_go [c] cs
  let kind := match_keyword p.1
  if kind = Kind.Name then ((kind, TokenValue.String p.1), p.2)
  else ((kind, TokenValue.none), p.2)

/-- The accumulation loop of `Lexer::unsigned_integer`. -/
def unsigned_integer_go (buf : List Char) :
    List Char → List Char × List Char
  | [] => (buf, [])
  | c :: cs =>
      if isAsciiDigit c then unsigned_integer_go (buf ++ [c]) cs
      else (buf, c :: cs)

/-- Decimal value of a digit string, as computed by
`str::parse::<u32>` on an all-digit input. -/
def digitsToNat (l : List Char) : Nat :=
  l.foldl (fun a c => a * 10 + (c.toNat - 48)) 0

/-- Constant `u32::MAX`. -/
def U32_MAX : Nat := 4294967295

/-- Models `Lexer::unsigned_integer`: scan a maximal digit run;
`buf.parse::<u32>().unwrap()` panics on overflow, modelled as `none`. -/
def unsigned_integer (c : Char) (cs : List Char) :
    Option ((Kind × TokenValue) × List Char) :=
  let p := unsigned_integer_go [c] cs
  if digitsToNat p.1 ≤ U32_MAX then
    some ((Kind.UnsignedInteger, TokenValue.Integer (digitsToNat p.1)), p.2)
  else none

/-- The 2-state machine of `Lexer::string`. -/
inductive SState where
  | SingleQuote
  | Other
  deriving DecidableEq, Repr

/-- The loop body of `Lexer::string`: in state `Other` every character
is pushed (a quote also switches the state); in state `SingleQuote` a
second quote pops the previous one and is pushed (collapsing `''` to
`'`), anything else ends the loop without being consumed. -/
def string_go (state : SState) (buf : List Char) :
    List Char → List Char × List Char
  | [] => (buf, [])
  | c :: cs =>
      match state with
      | SState.Other =>
          if c = squote then string_go SState.SingleQuote (buf ++ [c]) cs
          else string_go SState.Other (buf ++ [c]) cs
      | SState.SingleQuote =>
          if c = squote then string_go SState.Other (buf.dropLast ++ [c]) cs
          else (buf, c :: cs)

/-- Models `Lexer::string`: scan a quoted string body (the opening quote is
already consumed) and strip a trailing quote if present. -/
def string (cs : List Char) : (Kind × TokenValue) × List Char :=
  let p := string_go SState.Other [] cs
  let buf := if p.1.getLast? = some squote then p.1.dropLast else p.1
  ((Kind.String, TokenValue.String buf), p.2)

/-- The maximal-munch loop of `Lexer::symbol`. -/
def symbol_go (buf : List Char) : List Char → List Char × List Char
  | [] => (buf, [])
  | c :: cs =>
      if SYMBOLS_LEN_1 buf then (buf, c :: cs)
      else if match_symbol [c] = Kind.Unknown then (buf, c :: cs)
      else symbol_go (buf ++ [c]) cs

/-- Models `Lexer::symbol`: scan an operator/punctuation candidate and
classify it; an unmatched buffer becomes an `Unknown` token carrying
the raw text. -/
def symbol (c : Char) (cs : List Char) : (Kind × TokenValue) × List Char :=
  let p := symbol_go [c] cs
  let kind := match_symbol p.1
  if kind ≠ Kind.Unknown then ((kind, TokenValue.none), p.2)
  else ((kind, TokenValue.String p.1), p.2)

/-- Models `Lexer::token`: dispatch on the first character of a token. -/
def token (c : Char) (cs : List Char) :
    Option ((Kind × TokenValue) × List Char) :=
  if isAsciiLetter c then some (name_keyword c cs)
  else if isAsciiDigit c then unsigned_integer c cs
  else if c = squote then some (string cs)
  else some (symbol c cs)

/-- Models `struct Lexer`: the borrowed source plus the remaining character
iterator. -/
structure Lexer where
  src : List Char
  rest : List Char
  deriving DecidableEq, Repr

/-- Models `Lexer::new`. -/
def Lexer.new (source : List Char) : Lexer := ⟨source, source⟩

/-- Models `Lexer::offset`: `self.source.len() - self.chars.clone().count()`,
i.e. the byte length of the source minus the number of remaining
characters. -/
def offset (src rest : List Char) : Nat := utf8Len src - rest.length

theorem comment_brace_length_le (cs : List Char) :
    (comment_brace cs).length ≤ cs.length := by
  induction cs with
  | nil => simp [comment_brace]
  | cons c cs ih =>
      simp only [comment_brace]
      split
      · simp
      · exact Nat.le_succ_of_le ih

theorem comment_slashstar_go_length_le (cs : List Char) :
    ∀ s, (comment_slashstar_go s cs).length ≤ cs.length := by
  induction cs with
  | nil => intro s; cases s <;> simp [comment_slashstar_go]
  | cons c cs ih =>
      intro s
      cases s <;> simp only [comment_slashstar_go] <;>
        repeat' split
      all_goals
        first
        | exact Nat.le_succ_of_le (ih _)
        | simp

theorem comment_length_le (c : Char) (cs : List Char) :
    (comment c cs).length ≤ cs.length := by
  simp only [comment]
  split
  · exact comment_brace_length_le cs
  · split
    · exact comment_slashstar_go_length_le cs _
    · exact Nat.le_refl _

/-- Models `Lexer::read_next_token`: skip separators/comments, then read one
token; at end of input produce the end-of-input token.  Returns the
token together with the new remaining suffix; `none` models the
integer-overflow panic. -/
def read_next_token (src : List Char) : List Char → Option (Token × List Char)
  | [] => some (⟨Kind.Eof, offset src [], offset src [], TokenValue.none⟩, [])
  | c :: cs =>
      if isSep c then read_next_token src (comment c cs)
      else
        match token c cs with
        | Option.none => Option.none
        | some (kv, rest') =>
            some (⟨kv.1, offset src (c :: cs), offset src rest', kv.2⟩, rest')
  termination_by rest => rest.length
  decreasing_by
    exact Nat.lt_succ_of_le (comment_length_le c cs)

theorem comment_brace_suffix (cs : List Char) : comment_brace cs <:+ cs := by
  induction cs with
  | nil => exact List.suffix_refl _
  | cons c cs ih =>
      simp only [comment_brace]
      split
      · exact List.suffix_cons c cs
      · exact ih.trans (List.suffix_cons c cs)

theorem comment_slashstar_go_suffix (cs : List Char) :
    ∀ s, comment_slashstar_go s cs <:+ cs := by
  induction cs with
  | nil => intro s; cases s <;> simp [comment_slashstar_go]
  | cons c cs ih =>
      intro s
      cases s <;> simp only [comment_slashstar_go] <;> repeat' split
      all_goals
        first
        | exact List.suffix_cons c cs
        | exact (ih _).trans (List.suffix_cons c cs)

theorem comment_suffix (c : Char) (cs : List Char) : comment c cs <:+ cs := by
  simp only [comment]
  split
  · exact comment_brace_suffix cs
  · split
    · exact comment_slashstar_go_suffix cs _
    · exact List.suffix_refl _

theorem name_keyword_go_eq (cs : List Char) : ∀ buf,
    name_keyword_go buf cs =
      (buf ++ cs.takeWhile isAlnumChar, cs.dropWhile isAlnumChar) := by
  induction cs with
  | nil => intro buf; simp [name_keyword_go]
  | cons c cs ih =>
      intro buf
      simp only [name_keyword_go, List.takeWhile_cons, List.dropWhile_cons]
      by_cases h : isAlnumChar c <;> simp [h, ih]

theorem unsigned_integer_go_eq (cs : List Char) : ∀ buf,
    unsigned_integer_go buf cs =
      (buf ++ cs.takeWhile isAsciiDigit, cs.dropWhile isAsciiDigit) := by
  induction cs with
  | nil => intro buf; simp [unsigned_integer_go]
  | cons c cs ih =>
      intro buf
      simp only [unsigned_integer_go, List.takeWhile_cons, List.dropWhile_cons]
      by_cases h : isAsciiDigit c <;> simp [h, ih]

theorem string_go_suffix (cs : List Char) :
    ∀ s buf, (string_go s buf cs).2 <:+ cs := by
  induction cs with
  | nil => intro s buf; simp [string_go]
  | cons c cs ih =>
      intro s buf
      cases s <;> simp only [string_go] <;> repeat' split
      all_goals
        first
        | exact (ih _ _).trans (List.suffix_cons c cs)
        | exact List.suffix_refl _

/-- Lemma: `symbol_go` appends some consumed prefix of its input to the buffer
and returns the corresponding suffix. -/
theorem symbol_go_eq (cs : List Char) : ∀ buf,
    ∃ d, symbol_go buf cs = (buf ++ d, (symbol_go buf cs).2) ∧
      d ++ (symbol_go buf cs).2 = cs := by
  induction cs with
  | nil => intro buf; exact ⟨[], by simp [symbol_go]⟩
  | cons c cs ih =>
      intro buf
      simp only [symbol_go]
      split
      · exact ⟨[], by simp⟩
      · split
        · exact ⟨[], by simp⟩
        · obtain ⟨d, hd1, hd2⟩ := ih (buf ++ [c])
          refine ⟨c :: d, ?_, by simp [hd2]⟩
          rw [hd1]
          simp

theorem symbol_go_suffix (cs : List Char) (buf : List Char) :
    (symbol_go buf cs).2 <:+ cs := by
  obtain ⟨d, _, hd2⟩ := symbol_go_eq cs buf
  exact ⟨d, hd2⟩

theorem token_rest_suffix {c : Char} {cs : List Char} {kv : Kind × TokenValue}
    {r : List Char} (h : token c cs = some (kv, r)) : r <:+ cs := by
  simp only [token] at h
  split at h
  · simp only [name_keyword, Option.some_inj] at h
    rw [name_keyword_go_eq] at h
    split at h <;>
      (cases h; exact List.dropWhile_suffix _)
  · split at h
    · simp only [unsigned_integer] at h
      rw [unsigned_integer_go_eq] at h
      split at h
      · cases h
        exact List.dropWhile_suffix _
      · cases h
    · split at h
      · simp only [string, Option.some_inj] at h
        cases h
        exact string_go_suffix cs _ _
      · simp only [symbol, Option.some_inj] at h
        split at h <;>
          (cases h; exact symbol_go_suffix cs _)

theorem lookup_some_mem {α β : Type} [BEq α] {l : List (α × β)} {k : α}
    {v : β} (h : l.lookup k = some v) : v ∈ l.map Prod.snd := by
  induction l with
  | nil => simp [List.lookup] at h
  | cons p l ih =>
      rw [List.lookup] at h
      split at h
      · cases h; simp
      · simpa using Or.inr (ih h)

theorem match_keyword_ne_eof (l : List Char) : match_keyword l ≠ Kind.Eof := by
  unfold match_keyword
  split
  · decide
  · rcases hl : KEYWORD_TABLE.lookup l with _ | v
    · decide
    · have hmem := lookup_some_mem hl
      have hall : ∀ v ∈ KEYWORD_TABLE.map Prod.snd, v ≠ Kind.Eof := by decide
      simpa using hall v hmem

theorem match_symbol_ne_eof (l : List Char) : match_symbol l ≠ Kind.Eof := by
  unfold match_symbol
  rcases hl : SYMBOL_TABLE.lookup l with _ | v
  · decide
  · have hmem := lookup_some_mem hl
    have hall : ∀ v ∈ SYMBOL_TABLE.map Prod.snd, v ≠ Kind.Eof := by decide
    simpa using hall v hmem

theorem token_kind_ne_eof {c : Char} {cs : List Char} {kv : Kind × TokenValue}
    {r : List Char} (h : token c cs = some (kv, r)) : kv.1 ≠ Kind.Eof := by
  simp only [token] at h
  split at h
  · simp only [name_keyword, Option.some_inj] at h
    split at h <;> (cases h; exact match_keyword_ne_eof _)
  · split at h
    · simp only [unsigned_integer] at h
      split at h
      · cases h; simp
      · cases h
    · split at h
      · simp only [string, Option.some_inj] at h
        cases h; simp
      · simp only [symbol, Option.some_inj] at h
        split at h <;> (cases h; exact match_symbol_ne_eof _)

/-- Master characterization of one `read_next_token` step. -/
theorem rnt_spec (n : Nat) : ∀ (src rest : List Char) (t : Token)
    (rest' : List Char), rest.length ≤ n →
    read_next_token src rest = some (t, rest') →
    rest' <:+ rest ∧
    (t.kind = Kind.Eof → rest' = [] ∧
      t = ⟨Kind.Eof, utf8Len src, utf8Len src, TokenValue.none⟩) ∧
    (t.kind ≠ Kind.Eof → ∃ c cs,
      (c :: cs) <:+ rest ∧ isSep c = false ∧
      t.start = offset src (c :: cs) ∧
      token c cs = some ((t.kind, t.value), rest') ∧
      t.endPos = offset src rest' ∧ rest' <:+ cs) := by
  induction n with
  | zero =>
      intro src rest t rest' hlen h
      rw [Nat.le_zero, List.length_eq_zero] at hlen
      subst hlen
      rw [read_next_token] at h
      cases h
      refine ⟨List.suffix_refl _, fun _ => ⟨rfl, by simp [offset, utf8Len]⟩,
        fun hne => absurd rfl hne⟩
  | succ n ih =>
      intro src rest t rest' hlen h
      cases rest with
      | nil =>
          rw [read_next_token] at h
          cases h
          refine ⟨List.suffix_refl _, fun _ => ⟨rfl, by simp [offset, utf8Len]⟩,
            fun hne => absurd rfl hne⟩
      | cons c cs =>
          rw [read_next_token] at h
          by_cases hsep : isSep c
          · rw [if_pos hsep] at h
            have hlen' : (comment c cs).length ≤ n := by
              have := comment_length_le c cs
              simp only [List.length_cons] at hlen
              omega
            obtain ⟨h1, h2, h3⟩ := ih src (comment c cs) t rest' hlen' h
            have hcsuf : comment c cs <:+ c :: cs :=
              (comment_suffix c cs).trans (List.suffix_cons c cs)
            refine ⟨h1.trans hcsuf, h2, fun hne => ?_⟩
            obtain ⟨c', cs', hs, hrest⟩ := h3 hne
            exact ⟨c', cs', hs.trans hcsuf, hrest⟩
          · rw [if_neg hsep] at h
            rcases htok : token c cs with _ | ⟨kv, r⟩
            · rw [htok] at h; cases h
            · rw [htok] at h
              simp only [Option.some_inj] at h
              obtain ⟨ht, hr⟩ := Prod.mk.injEq .. ▸ h
              subst hr
              subst ht
              have hne := token_kind_ne_eof htok
              refine ⟨(token_rest_suffix htok).trans (List.suffix_cons c cs),
                fun he => absurd he hne, fun _ => ?_⟩
              exact ⟨c, cs, List.suffix_refl _, by simpa using hsep, rfl,
                htok, rfl, token_rest_suffix htok⟩

/-- A non-`Eof` token strictly consumes input. -/
theorem rnt_dec {src rest : List Char} {t : Token} {rest' : List Char}
    (h : read_next_token src rest = some (t, rest'))
    (ht : t.kind ≠ Kind.Eof) : rest'.length < rest.length := by
  obtain ⟨_, _, h3⟩ := rnt_spec rest.length src rest t rest' (Nat.le_refl _) h
  obtain ⟨c, cs, hs, _, _, _, _, hsuf⟩ := h3 ht
  have h1 : rest'.length ≤ cs.length := hsuf.length_le
  have h2 : (c :: cs).length ≤ rest.length := hs.length_le
  simp only [List.length_cons] at h2
  omega

/-- Models `Lexer::analyze`: collect tokens until (and including) the first
end-of-input token; `none` models the integer-overflow panic. -/
def analyze (src : List Char) : List Char → Option (List Token)
  | rest =>
      match h : read_next_token src rest with
      | Option.none => Option.none
      | some (t, rest') =>
          if ht : t.kind = Kind.Eof then some [t]
          else
            match analyze src rest' with
            | Option.none => Option.none
            | some ts => some (t :: ts)
  termination_by rest => rest.length
  decreasing_by exact rnt_dec h ht

/-- Models `Lexer::read_next_token` as a method on the `Lexer` state. -/
def Lexer.read_next_token (l : Lexer) : Option (Token × Lexer) :=
  (Scan3.read_next_token l.src l.rest).map fun p => (p.1, ⟨l.src, p.2⟩)

/-- Models `Lexer::analyze` as a method on the `Lexer` state. -/
def Lexer.analyze (l : Lexer) : Option (List Token) :=
  Scan3.analyze l.src l.rest

/-- Fuel-indexed mirror of `read_next_token` (structural recursion, so
the kernel can evaluate it on concrete inputs). -/
def read_next_tokenF : Nat → List Char → List Char → Option (Token × List Char)
  | 0, _, _ => Option.none
  | fuel + 1, src, rest =>
      match rest with
      | [] => some (⟨Kind.Eof, offset src [], offset src [], TokenValue.none⟩, [])
      | c :: cs =>
          if isSep c then read_next_tokenF fuel src (comment c cs)
          else
            match token c cs with
            | Option.none => Option.none
            | some (kv, rest') =>
                some (⟨kv.1, offset src (c :: cs), offset src rest', kv.2⟩, rest')

/-- Fuel-indexed mirror of `analyze`. -/
def analyzeF : Nat → List Char → List Char → Option (List Token)
  | 0, _, _ => Option.none
  | fuel + 1, src, rest =>
      match read_next_tokenF (fuel + 1) src rest with
      | Option.none => Option.none
      | some (t, rest') =>
          if t.kind = Kind.Eof then some [t]
          else
            match analyzeF fuel src rest' with
            | Option.none => Option.none
            | some ts => some (t :: ts)

theorem read_next_tokenF_eq (fuel : Nat) : ∀ (src rest : List Char),
    rest.length < fuel → read_next_tokenF fuel src rest =
      read_next_token src rest := by
  induction fuel with
  | zero => intro src rest h; omega
  | succ fuel ih =>
      intro src rest h
      cases rest with
      | nil => rw [read_next_token]; rfl
      | cons c cs =>
          rw [read_next_token]
          simp only [read_next_tokenF]
          by_cases hsep : isSep c
          · rw [if_pos hsep, if_pos hsep]
            refine ih src (comment c cs) ?_
            have := comment_length_le c cs
            simp only [List.length_cons] at h
            omega
          · rw [if_neg hsep, if_neg hsep]

theorem analyzeF_eq (fuel : Nat) : ∀ (src rest : List Char),
    rest.length < fuel → analyzeF fuel src rest = analyze src rest := by
  induction fuel with
  | zero => intro src rest h; omega
  | succ fuel ih =>
      intro src rest h
      rw [analyze]
      simp only [analyzeF, read_next_tokenF_eq (fuel + 1) src rest h]
      rcases hr : read_next_token src rest with _ | ⟨t, rest'⟩
      · rfl
      · by_cases ht : t.kind = Kind.Eof
        · simp [ht]
        · have hd : rest'.length < fuel := by
            have := rnt_dec hr ht
            omega
          simp [ht, ih src rest' hd]

theorem utf8Size_eq_one_of_ascii {c : Char} (h : c.toNat < 128) :
    c.utf8Size = 1 := by
  unfold Char.utf8Size
  rw [if_pos]
  show c.val ≤ (127 : UInt32)
  rw [UInt32.le_def, BitVec.le_def]
  simp only [Char.toNat] at h
  have h2 : c.val.toBitVec.toNat = c.val.toNat := rfl
  have h3 : (127 : UInt32).toBitVec.toNat = 127 := rfl
  omega

/-- On all-ASCII text the byte length coincides with the character
count, so the source's offsets are genuine byte offsets. -/
theorem utf8Len_ascii {l : List Char} (h : ∀ c ∈ l, c.toNat < 128) :
    utf8Len l = l.length := by
  induction l with
  | nil => rfl
  | cons c cs ih =>
      have hc := utf8Size_eq_one_of_ascii (h c (by simp))
      have hcs := ih fun d hd => h d (by simp [hd])
      simp [utf8Len] at hcs ⊢
      omega

theorem toNat_range_of_digit {c : Char} (h : isAsciiDigit c = true) :
    48 ≤ c.toNat ∧ c.toNat ≤ 57 := by
  simp [isAsciiDigit, Char.le_def] at h
  exact h

theorem toNat_range_of_letter {c : Char} (h : isAsciiLetter c = true) :
    97 ≤ c.toNat ∧ c.toNat ≤ 122 ∨ 65 ≤ c.toNat ∧ c.toNat ≤ 90 := by
  simp [isAsciiLetter, Char.le_def] at h
  exact h

theorem not_sep_of_letter {c : Char} (h : isAsciiLetter c = true) :
    isSep c = false := by
  have hr := toNat_range_of_letter h
  simp only [isSep, Bool.or_eq_false_iff, beq_eq_false_iff_ne]
  refine ⟨⟨⟨⟨⟨?_, ?_⟩, ?_⟩, ?_⟩, ?_⟩, ?_⟩ <;>
    (rintro rfl; exact absurd hr (by decide))

theorem not_sep_of_digit {c : Char} (h : isAsciiDigit c = true) :
    isSep c = false := by
  have hr := toNat_range_of_digit h
  simp only [isSep, Bool.or_eq_false_iff, beq_eq_false_iff_ne]
  refine ⟨⟨⟨⟨⟨?_, ?_⟩, ?_⟩, ?_⟩, ?_⟩, ?_⟩ <;>
    (rintro rfl; exact absurd hr (by decide))

theorem not_letter_of_digit {c : Char} (h : isAsciiDigit c = true) :
    isAsciiLetter c = false := by
  have hr := toNat_range_of_digit h
  cases hl : isAsciiLetter c
  · rfl
  · have := toNat_range_of_letter hl
    omega

/-- Offsets are antitone in the remaining suffix. -/
theorem offset_mono {src a b : List Char} (h : b <:+ a) :
    offset src a ≤ offset src b :=
  Nat.sub_le_sub_left h.length_le (utf8Len src)

theorem offset_le (src rest : List Char) : offset src rest ≤ utf8Len src :=
  Nat.sub_le _ _

/-- A suffix of `l` is recovered by dropping `l.length - s.length`. -/
theorem suffix_drop_eq {s l : List Char} (h : s <:+ l) :
    l.drop (l.length - s.length) = s := by
  obtain ⟨p, hp⟩ := h
  have hlen : l.length = p.length + s.length := by
    rw [← hp, List.length_append]
  rw [hlen, Nat.add_sub_cancel, ← hp, List.drop_left]

/-- Taking everything before a suffix and re-appending the suffix
recovers the list: the slice `[0, l.length - s.length)` is exactly the
part of `l` preceding `s`. -/
theorem suffix_take_append {s l : List Char} (h : s <:+ l) :
    l.take (l.length - s.length) ++ s = l := by
  obtain ⟨p, hp⟩ := h
  have hlen : l.length = p.length + s.length := by
    rw [← hp, List.length_append]
  rw [hlen, Nat.add_sub_cancel, ← hp, List.take_left]

/-- One step of `read_next_token` on a non-separator head. -/
theorem rnt_cons_nosep {src : List Char} {c : Char} {cs : List Char}
    (h : isSep c = false) :
    read_next_token src (c :: cs) =
      match token c cs with
      | Option.none => Option.none
      | some (kv, rest') =>
          some (⟨kv.1, offset src (c :: cs), offset src rest', kv.2⟩, rest') := by
  rw [read_next_token]
  simp [h]

/-- One step of `read_next_token` on a separator head. -/
theorem rnt_cons_sep {src : List Char} {c : Char} {cs : List Char}
    (h : isSep c = true) :
    read_next_token src (c :: cs) = read_next_token src (comment c cs) := by
  rw [read_next_token]
  simp [h]

theorem rnt_nil (src : List Char) :
    read_next_token src [] =
      some (⟨Kind.Eof, utf8Len src, utf8Len src, TokenValue.none⟩, []) := by
  rw [read_next_token]
  simp [offset]

theorem analyze_unfold (src rest : List Char) :
    analyze src rest =
      match read_next_token src rest with
      | Option.none => Option.none
      | some (t, rest') =>
          if t.kind = Kind.Eof then some [t]
          else
            match analyze src rest' with
            | Option.none => Option.none
            | some ts => some (t :: ts) := by
  rw [analyze]
  rcases h : read_next_token src rest with _ | ⟨t, rest'⟩
  · rfl
  · by_cases ht : t.kind = Kind.Eof <;> simp [ht]

theorem analyze_of_rnt_none {src rest : List Char}
    (h : read_next_token src rest = Option.none) :
    analyze src rest = Option.none := by
  rw [analyze_unfold, h]

theorem analyze_of_rnt_eof {src rest : List Char} {t : Token}
    {rest' : List Char} (h : read_next_token src rest = some (t, rest'))
    (ht : t.kind = Kind.Eof) : analyze src rest = some [t] := by
  rw [analyze_unfold, h]
  simp [ht]

theorem analyze_of_rnt_step {src rest : List Char} {t : Token}
    {rest' : List Char} {ts' : List Token}
    (h : read_next_token src rest = some (t, rest'))
    (ht : ¬t.kind = Kind.Eof) (ha : analyze src rest' = some ts') :
    analyze src rest = some (t :: ts') := by
  rw [analyze_unfold, h]
  simp [ht, ha]

theorem analyze_of_rnt_step_none {src rest : List Char} {t : Token}
    {rest' : List Char} (h : read_next_token src rest = some (t, rest'))
    (ht : ¬t.kind = Kind.Eof) (ha : analyze src rest' = Option.none) :
    analyze src rest = Option.none := by
  rw [analyze_unfold, h]
  simp [ht, ha]

/-- The kinds that stand for reserved keywords. -/
def isKeywordKind : Kind → Bool
  | Kind.Program | Kind.Var | Kind.Array | Kind.Of | Kind.Begin | Kind.End
  | Kind.If | Kind.Then | Kind.Else | Kind.Procedure | Kind.Return
  | Kind.Call | Kind.While | Kind.DO | Kind.Not | Kind.Or | Kind.Div
  | Kind.And | Kind.Char | Kind.Integer | Kind.Boolean | Kind.Read
  | Kind.Write | Kind.Readln | Kind.Writeln | Kind.True | Kind.False
  | Kind.Break => true
  | _ => false

theorem lookup_some_key_mem {α β : Type} [BEq α] [LawfulBEq α]
    {l : List (α × β)} {k : α} {v : β} (h : l.lookup k = some v) :
    (k, v) ∈ l := by
  induction l with
  | nil => simp [List.lookup] at h
  | cons p l ih =>
      rw [List.lookup] at h
      split at h
      · cases h
        have hk : k = p.1 := by
          rename_i heq
          exact eq_of_beq heq
        subst hk
        simp
      · simpa using Or.inr (ih h)

theorem lookup_isSome_of_key_mem {α β : Type} [BEq α] [LawfulBEq α]
    {l : List (α × β)} {k : α} (h : k ∈ l.map Prod.fst) :
    ∃ v, l.lookup k = some v := by
  induction l with
  | nil => simp at h
  | cons p l ih =>
      rw [List.lookup]
      rcases hbeq : k == p.1 with _ | _
      · simp only [List.map_cons, List.mem_cons] at h
        rcases h with h | h
        · rw [beq_eq_false_iff_ne] at hbeq
          exact absurd h hbeq
        · exact ih h
      · exact ⟨p.2, rfl⟩

theorem keyword_values_keyword :
    ∀ v ∈ KEYWORD_TABLE.map Prod.snd, isKeywordKind v = true := by decide

theorem keyword_keys_len :
    ∀ k ∈ KEYWORD_TABLE.map Prod.fst, 2 ≤ utf8Len k ∧ utf8Len k ≤ 10 := by
  decide

/-- Lemma: `match_keyword` yields a keyword kind precisely for the table keys
(whose lengths all lie between 2 and 10). -/
theorem isKeywordKind_match_keyword_iff (l : List Char) :
    isKeywordKind (match_keyword l) = true ↔
      l ∈ KEYWORD_TABLE.map Prod.fst ∧ 2 ≤ utf8Len l ∧ utf8Len l ≤ 10 := by
  unfold match_keyword
  split
  · rename_i hlen
    simp only [isKeywordKind, Bool.false_eq_true, false_iff]
    rintro ⟨hm, h2, h10⟩
    omega
  · rename_i hlen
    rcases hl : KEYWORD_TABLE.lookup l with _ | v
    · simp only [Option.getD_none, isKeywordKind, Bool.false_eq_true, false_iff]
      rintro ⟨hm, _, _⟩
      obtain ⟨v, hv⟩ := lookup_isSome_of_key_mem hm
      rw [hl] at hv
      cases hv
    · simp only [Option.getD_some]
      have hmem := lookup_some_key_mem hl
      have hkey : l ∈ KEYWORD_TABLE.map Prod.fst :=
        List.mem_map_of_mem Prod.fst hmem
      have hval : v ∈ KEYWORD_TABLE.map Prod.snd :=
        List.mem_map_of_mem Prod.snd hmem
      constructor
      · intro _
        exact ⟨hkey, keyword_keys_len l hkey⟩
      · intro _
        exact keyword_values_keyword v hval

theorem match_keyword_eq_name_of_not_keyword {l : List Char}
    (h : isKeywordKind (match_keyword l) = false) :
    match_keyword l = Kind.Name := by
  unfold match_keyword at h ⊢
  by_cases hlen : utf8Len l = 1 ∨ utf8Len l > 10
  · rw [if_pos hlen]
  · rw [if_neg hlen] at h ⊢
    rcases hl : KEYWORD_TABLE.lookup l with _ | v
    · simp [hl]
    · rw [hl] at h
      have hval : v ∈ KEYWORD_TABLE.map Prod.snd :=
        List.mem_map_of_mem Prod.snd (lookup_some_key_mem hl)
      have := keyword_values_keyword v hval
      simp only [Option.getD_some] at h
      rw [this] at h
      cases h

/-- Lemma: `name_keyword` in closed form: the token text is the maximal
letter/digit run, the kind comes from `match_keyword`, and the value is
the text exactly when the kind is `Name`. -/
theorem name_keyword_eq (c : Char) (cs : List Char) :
    name_keyword c cs =
      ((match_keyword (c :: cs.takeWhile isAlnumChar),
        if match_keyword (c :: cs.takeWhile isAlnumChar) = Kind.Name
        then TokenValue.String (c :: cs.takeWhile isAlnumChar)
        else TokenValue.none),
       cs.dropWhile isAlnumChar) := by
  unfold name_keyword
  rw [name_keyword_go_eq]
  simp only [List.singleton_append]
  split <;> simp_all

theorem token_letter {c : Char} {cs : List Char}
    (h : isAsciiLetter c = true) : token c cs = some (name_keyword c cs) := by
  simp [token, h]

theorem token_digit {c : Char} {cs : List Char}
    (h : isAsciiDigit c = true) : token c cs = unsigned_integer c cs := by
  simp [token, not_letter_of_digit h, h]

theorem token_squote (cs : List Char) :
    token squote cs = some (string cs) := by
  have h1 : isAsciiLetter squote = false := by decide
  have h2 : isAsciiDigit squote = false := by decide
  simp [token, h1, h2]

theorem token_other {c : Char} {cs : List Char}
    (hl : isAsciiLetter c = false) (hd : isAsciiDigit c = false)
    (hq : c ≠ squote) : token c cs = some (symbol c cs) := by
  simp [token, hl, hd, hq]

theorem digitsToNat_single (x : Char) : digitsToNat [x] = x.toNat - 48 := by
  simp [digitsToNat]

/-- Scanning a single character with empty lookahead always yields a
token and consumes nothing further. -/
theorem string_single : string [] = ((Kind.String, TokenValue.String []), []) :=
  rfl

theorem symbol_single (x : Char) : symbol x [] =
    ((match_symbol [x],
      if match_symbol [x] = Kind.Unknown then TokenValue.String [x]
      else TokenValue.none), []) := by
  unfold symbol
  by_cases h : match_symbol [x] = Kind.Unknown <;> simp [symbol_go, h]

theorem token_single (x : Char) : ∃ kv, token x [] = some (kv, []) := by
  by_cases hl : isAsciiLetter x
  · refine ⟨(match_keyword [x],
      if match_keyword [x] = Kind.Name then TokenValue.String [x]
      else TokenValue.none), ?_⟩
    rw [token_letter hl]
    exact congrArg some (name_keyword_eq x [])
  · have hl' : isAsciiLetter x = false := by simpa using hl
    by_cases hd : isAsciiDigit x
    · rw [token_digit hd]
      simp only [unsigned_integer]
      rw [unsigned_integer_go_eq]
      have hb := toNat_range_of_digit hd
      have hle : digitsToNat ([x] ++ List.takeWhile isAsciiDigit ([] : List Char))
          ≤ U32_MAX := by
        simp [digitsToNat_single, U32_MAX]
        omega
      rw [if_pos hle]
      exact ⟨_, rfl⟩
    · have hd' : isAsciiDigit x = false := by simpa using hd
      by_cases hq : x = squote
      · subst hq
        refine ⟨(Kind.String, TokenValue.String []), ?_⟩
        rw [token_squote, string_single]
      · refine ⟨(match_symbol [x],
          if match_symbol [x] = Kind.Unknown then TokenValue.String [x]
          else TokenValue.none), ?_⟩
        rw [token_other hl' hd' hq, symbol_single]

/-- "Up to the closing `*/` pair, or to end of input": the reference
behaviour the specification describes for the slash-comment skipper. -/
def dropToStarSlash : List Char → List Char
  | [] => []
  | [_] => []
  | c :: d :: r =>
      if c = '*' ∧ d = '/' then r else dropToStarSlash (d :: r)

theorem dropToStarSlash_cons_of_ne {c : Char} {cs : List Char}
    (hc : c ≠ '*') : dropToStarSlash (c :: cs) = dropToStarSlash cs := by
  cases cs with
  | nil => rfl
  | cons d r =>
      rw [dropToStarSlash]
      simp [hc]

theorem comment_slashstar_go_eq_dts (cs : List Char) :
    comment_slashstar_go CState.Slash cs = dropToStarSlash cs ∧
    comment_slashstar_go CState.Other cs = dropToStarSlash cs ∧
    comment_slashstar_go CState.Star cs = dropToStarSlash ('*' :: cs) := by
  induction cs with
  | nil => refine ⟨rfl, rfl, rfl⟩
  | cons c cs ih =>
      obtain ⟨ih1, ih2, ih3⟩ := ih
      have hslash : comment_slashstar_go CState.Slash (c :: cs) =
          dropToStarSlash (c :: cs) := by
        by_cases hc : c = '*'
        · subst hc
          rw [comment_slashstar_go, if_pos rfl]
          exact ih3
        · rw [comment_slashstar_go, if_neg hc,
            dropToStarSlash_cons_of_ne hc]
          exact ih1
      refine ⟨hslash, ?_, ?_⟩
      · by_cases hc : c = '*'
        · subst hc
          rw [comment_slashstar_go, if_pos rfl]
          exact ih3
        · rw [comment_slashstar_go, if_neg hc,
            dropToStarSlash_cons_of_ne hc]
          exact ih2
      · by_cases hsl : c = '/'
        · subst hsl
          rw [comment_slashstar_go, if_pos rfl, dropToStarSlash,
            if_pos ⟨rfl, rfl⟩]
        · by_cases hc : c = '*'
          · subst hc
            rw [comment_slashstar_go, if_neg hsl, if_pos rfl,
              dropToStarSlash, if_neg (by simp [hsl])]
            exact ih3
          · rw [comment_slashstar_go, if_neg hsl, if_neg hc,
              dropToStarSlash, if_neg (by simp [hsl]),
              dropToStarSlash_cons_of_ne hc]
            exact ih2

theorem comment_slashstar_eq_dts (cs : List Char) :
    comment_slashstar cs = dropToStarSlash cs :=
  (comment_slashstar_go_eq_dts cs).1

/-- Master characterization of a full scan: it ends in exactly one
end-of-input token at `(len, len)`, tokens never overlap, all offsets
are bounded and ordered, and every non-`Eof` token starts at the
offset of a non-separator suffix of the input. -/
theorem analyze_spec (n : Nat) : ∀ (src rest : List Char) (ts : List Token),
    rest.length ≤ n → analyze src rest = some ts →
    (∃ pre, ts = pre ++ [⟨Kind.Eof, utf8Len src, utf8Len src, TokenValue.none⟩] ∧
      ∀ t ∈ pre, t.kind ≠ Kind.Eof) ∧
    List.Chain' (fun a b => a.endPos ≤ b.start) ts ∧
    (∀ t ∈ ts, offset src rest ≤ t.start ∧ t.start ≤ t.endPos ∧
      t.endPos ≤ utf8Len src) ∧
    (∀ t ∈ ts, t.kind ≠ Kind.Eof → ∃ c cs r, (c :: cs) <:+ rest ∧
      isSep c = false ∧ t.start = offset src (c :: cs) ∧
      token c cs = some ((t.kind, t.value), r) ∧
      t.endPos = offset src r ∧ r <:+ cs) := by
  induction n with
  | zero =>
      intro src rest ts hlen h
      have hrest : rest = [] := List.length_eq_zero.mp (Nat.le_zero.mp hlen)
      subst hrest
      rw [analyze_of_rnt_eof (rnt_nil src) rfl] at h
      cases h
      refine ⟨⟨[], by simp, by simp⟩, by simp, ?_, ?_⟩
      · intro t ht
        simp only [List.mem_singleton] at ht
        subst ht
        exact ⟨Nat.sub_le _ _, Nat.le_refl _, Nat.le_refl _⟩
      · intro t ht hne
        simp only [List.mem_singleton] at ht
        subst ht
        exact absurd rfl hne
  | succ n ih =>
      intro src rest ts hlen h
      rcases hr : read_next_token src rest with _ | ⟨t, rest'⟩
      · rw [analyze_of_rnt_none hr] at h; cases h
      · obtain ⟨hsuf, heof, hneof⟩ :=
          rnt_spec rest.length src rest t rest' (Nat.le_refl _) hr
        by_cases ht : t.kind = Kind.Eof
        · rw [analyze_of_rnt_eof hr ht] at h
          obtain ⟨hrest', hteq⟩ := heof ht
          cases h
          subst hteq
          refine ⟨⟨[], by simp, by simp⟩, by simp, ?_, ?_⟩
          · intro u hu
            simp only [List.mem_singleton] at hu
            subst hu
            exact ⟨offset_le src rest, Nat.le_refl _, Nat.le_refl _⟩
          · intro u hu hne
            simp only [List.mem_singleton] at hu
            subst hu
            exact absurd rfl hne
        · rcases ha : analyze src rest' with _ | ts'
          · rw [analyze_of_rnt_step_none hr ht ha] at h; cases h
          · rw [analyze_of_rnt_step hr ht ha] at h
            cases h
            have hlen' : rest'.length ≤ n := by
              have hd := rnt_dec hr ht
              omega
            obtain ⟨⟨pre', hpre', hpre'noEof⟩, hchain', hbounds', hfiller'⟩ :=
              ih src rest' ts' hlen' ha
            obtain ⟨c, cs, hccs, hcsep, hstart, htok, hend, hrest'cs⟩ :=
              hneof ht
            refine ⟨⟨t :: pre', by simp [hpre'], ?_⟩, ?_, ?_, ?_⟩
            · intro u hu
              rcases List.mem_cons.mp hu with heq | hu'
              · subst heq; exact ht
              · exact hpre'noEof u hu'
            · cases ts' with
              | nil => simp at hpre'
              | cons b ts'' =>
                  rw [List.chain'_cons]
                  refine ⟨?_, hchain'⟩
                  have hb := (hbounds' b (by simp)).1
                  rw [hend]
                  exact hb
            · intro u hu
              rcases List.mem_cons.mp hu with heq | hu'
              · subst heq
                refine ⟨?_, ?_, ?_⟩
                · rw [hstart]
                  exact offset_mono hccs
                · rw [hstart, hend]
                  exact offset_mono (hrest'cs.trans (List.suffix_cons c cs))
                · rw [hend]
                  exact offset_le src rest'
              · obtain ⟨h1, h2, h3⟩ := hbounds' u hu'
                exact ⟨Nat.le_trans (offset_mono hsuf) h1, h2, h3⟩
            · intro u hu hne
              rcases List.mem_cons.mp hu with heq | hu'
              · subst heq
                exact ⟨c, cs, rest', hccs, hcsep, hstart, htok, hend,
                  hrest'cs⟩
              · obtain ⟨c', cs', r'', hs', hsep', hst', htok', hend', hr''⟩ :=
                  hfiller' u hu' hne
                exact ⟨c', cs', r'', hs'.trans hsuf, hsep', hst', htok',
                  hend', hr''⟩

/-- Claim C1: for every input string, a full scan terminates (`analyze`
is a total function, defined by well-founded recursion) and whenever it
returns a token sequence, the last element is exactly one end-of-input
token whose start and end both equal the source byte length, and no
token follows it (no earlier token has kind `Eof`). -/
theorem claim1_full_scan_single_eof (src : List Char) (ts : List Token)
    (h : Lexer.analyze (Lexer.new src) = some ts) :
    ∃ pre, ts = pre ++
        [⟨Kind.Eof, utf8Len src, utf8Len src, TokenValue.none⟩] ∧
      ∀ t ∈ pre, t.kind ≠ Kind.Eof := by
  have h' : analyze src src = some ts := h
  exact (analyze_spec src.length src src ts (Nat.le_refl _) h').1

/-- Witness for C1 at the concrete input `"x"`. -/
theorem claim1_witness :
    ∃ pre : List Token,
      ([⟨Kind.Name, 0, 1, TokenValue.String ['x']⟩,
        ⟨Kind.Eof, 1, 1, TokenValue.none⟩] : List Token) = pre ++
        [⟨Kind.Eof, utf8Len ['x'], utf8Len ['x'], TokenValue.none⟩] ∧
      ∀ t ∈ pre, t.kind ≠ Kind.Eof :=
  claim1_full_scan_single_eof ['x']
    [⟨Kind.Name, 0, 1, TokenValue.String ['x']⟩,
     ⟨Kind.Eof, 1, 1, TokenValue.none⟩]
    (by rw [Lexer.analyze, Lexer.new, ← analyzeF_eq 2 _ _ (by decide)]; decide)

/-- Claim C2 (code bug): token offsets are meant to be byte offsets
delimiting the token's text, but the code computes
`source.len() - remaining_chars`, which differs from the byte offset on
multi-byte input.  On the source `"é"` (bytes `[195, 169]`) the only
non-`Eof` token carries the full source text `"é"` (bytes `[0, 2)`) yet
is given the span `[1, 2)`. -/
theorem claim2_offset_not_byte_offset :
    Lexer.analyze (Lexer.new ['é']) =
      some [⟨Kind.Unknown, 1, 2, TokenValue.String ['é']⟩,
            ⟨Kind.Eof, 2, 2, TokenValue.none⟩] ∧
    utf8Bytes ['é'] = [195, 169] ∧ utf8Len ['é'] = 2 := by
  refine ⟨?_, by decide, by decide⟩
  rw [Lexer.analyze, Lexer.new, ← analyzeF_eq 2 _ _ (by decide)]
  decide

/-- Counterexample to claim C3 as stated: the input `"a99999999999"`
contains the maximal digit run `"99999999999"`, whose value exceeds
`u32::MAX`, yet the scan completes normally (the run is part of an
identifier), producing a `Name` token and the end-of-input token. -/
theorem claim3_counterexample :
    Lexer.analyze (Lexer.new "a99999999999".data) =
      some [⟨Kind.Name, 0, 12, TokenValue.String "a99999999999".data⟩,
            ⟨Kind.Eof, 12, 12, TokenValue.none⟩] ∧
    "a99999999999".data = 'a' :: "99999999999".data ∧
    U32_MAX < digitsToNat "99999999999".data := by
  refine ⟨?_, by decide, by decide⟩
  rw [Lexer.analyze, Lexer.new, ← analyzeF_eq 13 _ _ (by decide)]
  decide

/-- Claim C3 (amended): whenever the scanner is positioned at a digit
whose maximal digit run has a value exceeding `u32::MAX` — that is,
when the run is scanned as an integer literal — the single-step scan
aborts (models the `parse::<u32>().unwrap()` panic) and so does the
full scan: no token is produced for the literal or anything after
it. -/
theorem claim3_overflow_aborts (st : Lexer) (c : Char) (cs : List Char)
    (hrest : st.rest = c :: cs) (hc : isAsciiDigit c = true)
    (hover : U32_MAX < digitsToNat (c :: cs.takeWhile isAsciiDigit)) :
    Lexer.read_next_token st = Option.none ∧
    Lexer.analyze st = Option.none := by
  have htok : token c cs = Option.none := by
    rw [token_digit hc]
    simp only [unsigned_integer]
    rw [unsigned_integer_go_eq]
    rw [if_neg]
    simp only [List.singleton_append]
    omega
  have hr : read_next_token st.src st.rest = Option.none := by
    rw [hrest, rnt_cons_nosep (not_sep_of_digit hc), htok]
  constructor
  · rw [Lexer.read_next_token, hr]
    rfl
  · rw [Lexer.analyze, analyze_of_rnt_none hr]

/-- Witness for C3 at the concrete input `"99999999999"`. -/
theorem claim3_witness :
    Lexer.read_next_token (Lexer.new "99999999999".data) = Option.none ∧
    Lexer.analyze (Lexer.new "99999999999".data) = Option.none :=
  claim3_overflow_aborts (Lexer.new "99999999999".data) '9'
    "9999999999".data (by decide) (by decide) (by decide)

/-- Claim C6: the input `'ab''cd'` scans to exactly one string token
with value `ab'cd` (the doubled quote collapses to one literal quote),
followed by the end-of-input token. -/
theorem claim6_string_escape :
    Lexer.analyze (Lexer.new
        [squote, 'a', 'b', squote, squote, 'c', 'd', squote]) =
      some [⟨Kind.String, 0, 8, TokenValue.String ['a', 'b', squote, 'c', 'd']⟩,
            ⟨Kind.Eof, 8, 8, TokenValue.none⟩] := by
  rw [Lexer.analyze, Lexer.new, ← analyzeF_eq 9 _ _ (by decide)]
  decide

/-- Claim C10: on the input `"#+"` the symbol scanner absorbs the `+`
after the unrecognized `#` and emits a single `Unknown` token holding
both characters, not an `Unknown` token followed by a `Plus` token. -/
theorem claim10_unknown_absorbs :
    Lexer.analyze (Lexer.new "#+".data) =
      some [⟨Kind.Unknown, 0, 2, TokenValue.String "#+".data⟩,
            ⟨Kind.Eof, 2, 2, TokenValue.none⟩] := by
  rw [Lexer.analyze, Lexer.new, ← analyzeF_eq 3 _ _ (by decide)]
  decide

/-- Counterexample to claim C4 as stated: the input `":+"` — a colon
followed by the non-`=` character `+` — does not scan as a `Colon`
token followed by a token for `+`; the symbol scanner absorbs the `+`
and emits a single `Unknown` token `":+"`. -/
theorem claim4_counterexample :
    Lexer.analyze (Lexer.new ":+".data) =
      some [⟨Kind.Unknown, 0, 2, TokenValue.String ":+".data⟩,
            ⟨Kind.Eof, 2, 2, TokenValue.none⟩] := by
  rw [Lexer.analyze, Lexer.new, ← analyzeF_eq 3 _ _ (by decide)]
  decide

/-- Claim C4 (amended): `":="` scans as one `Assign` token; and for a
following character `x` that is neither a separator nor a character
that itself starts a known symbol, `":" x` scans as a `Colon` token
followed by the same (kind, value) token that `x` alone would produce,
then end-of-input. -/
theorem claim4_assign_and_colon (x : Char)
    (hx : match_symbol [x] = Kind.Unknown) (hsep : isSep x = false) :
    Lexer.analyze (Lexer.new ":=".data) =
      some [⟨Kind.Assign, 0, 2, TokenValue.none⟩,
            ⟨Kind.Eof, 2, 2, TokenValue.none⟩] ∧
    ∃ k v, (Lexer.analyze (Lexer.new [x])).map
        (List.map fun t => (t.kind, t.value)) =
        some [(k, v), (Kind.Eof, TokenValue.none)] ∧
      (Lexer.analyze (Lexer.new [':', x])).map
        (List.map fun t => (t.kind, t.value)) =
        some [(Kind.Colon, TokenValue.none), (k, v),
              (Kind.Eof, TokenValue.none)] := by
  constructor
  · rw [Lexer.analyze, Lexer.new, ← analyzeF_eq 3 _ _ (by decide)]
    decide
  · obtain ⟨⟨k, v⟩, htok⟩ := token_single x
    have hkE : ¬k = Kind.Eof := by simpa using token_kind_ne_eof htok
    have haux : ∀ src : List Char, analyze src [x] =
        some [⟨k, offset src [x], offset src [], v⟩,
              ⟨Kind.Eof, utf8Len src, utf8Len src, TokenValue.none⟩] := by
      intro src
      have h1 : read_next_token src [x] =
          some (⟨k, offset src [x], offset src [], v⟩, []) := by
        rw [rnt_cons_nosep hsep, htok]
      exact analyze_of_rnt_step h1 hkE (analyze_of_rnt_eof (rnt_nil src) rfl)
    refine ⟨k, v, ?_, ?_⟩
    · have hA : Lexer.analyze (Lexer.new [x]) = analyze [x] [x] := rfl
      rw [hA, haux [x]]
      simp
    · have hS : SYMBOLS_LEN_1 [':'] = false := by decide
      have hsg : symbol_go [':'] [x] = ([':'], [x]) := by
        simp [symbol_go, hS, hx]
      have hcolon : match_symbol [':'] = Kind.Colon := by decide
      have hsym : symbol ':' [x] = ((Kind.Colon, TokenValue.none), [x]) := by
        simp [symbol, hsg, hcolon]
      have htokc : token ':' [x] = some ((Kind.Colon, TokenValue.none), [x]) := by
        rw [token_other (by decide) (by decide) (by decide), hsym]
      have h2 : read_next_token [':', x] [':', x] =
          some (⟨Kind.Colon, offset [':', x] [':', x], offset [':', x] [x],
            TokenValue.none⟩, [x]) := by
        rw [rnt_cons_nosep (by decide : isSep ':' = false), htokc]
      have h3 : analyze [':', x] [':', x] =
          some (⟨Kind.Colon, offset [':', x] [':', x], offset [':', x] [x],
              TokenValue.none⟩ ::
            [⟨k, offset [':', x] [x], offset [':', x] [], v⟩,
             ⟨Kind.Eof, utf8Len [':', x], utf8Len [':', x],
               TokenValue.none⟩]) :=
        analyze_of_rnt_step h2 (by simp) (haux [':', x])
      have hA : Lexer.analyze (Lexer.new [':', x]) = analyze [':', x] [':', x] :=
        rfl
      rw [hA, h3]
      simp

/-- Witness for C4 at the concrete character `#`. -/
theorem claim4_witness :
    Lexer.analyze (Lexer.new ":=".data) =
      some [⟨Kind.Assign, 0, 2, TokenValue.none⟩,
            ⟨Kind.Eof, 2, 2, TokenValue.none⟩] ∧
    ∃ k v, (Lexer.analyze (Lexer.new ['#'])).map
        (List.map fun t => (t.kind, t.value)) =
        some [(k, v), (Kind.Eof, TokenValue.none)] ∧
      (Lexer.analyze (Lexer.new [':', '#'])).map
        (List.map fun t => (t.kind, t.value)) =
        some [(Kind.Colon, TokenValue.none), (k, v),
              (Kind.Eof, TokenValue.none)] :=
  claim4_assign_and_colon '#' (by decide) (by decide)

theorem toNat_lt_128_of_alnum {c : Char} (h : isAlnumChar c = true) :
    c.toNat < 128 := by
  simp only [isAlnumChar, Bool.or_eq_true] at h
  rcases h with h | h
  · rcases toNat_range_of_letter h with ⟨_, _⟩ | ⟨_, _⟩ <;> omega
  · obtain ⟨_, _⟩ := toNat_range_of_digit h
    omega

/-- Claim C5: a token read at a letter is classified as a keyword kind
(with no value) exactly when the maximal letter/digit run starting
there is one of the reserved words and its length lies between 2 and
10; every other such run yields a plain `Name` token carrying the run
as its value. -/
theorem claim5_keyword_classification (src : List Char) (c : Char)
    (cs : List Char) (t : Token) (rest' : List Char)
    (hc : isAsciiLetter c = true)
    (h : read_next_token src (c :: cs) = some (t, rest')) :
    (isKeywordKind t.kind = true ↔
      (c :: cs.takeWhile isAlnumChar) ∈ KEYWORD_TABLE.map Prod.fst ∧
        2 ≤ (c :: cs.takeWhile isAlnumChar).length ∧
        (c :: cs.takeWhile isAlnumChar).length ≤ 10) ∧
    (isKeywordKind t.kind = true → t.value = TokenValue.none) ∧
    (isKeywordKind t.kind = false → t.kind = Kind.Name ∧
      t.value = TokenValue.String (c :: cs.takeWhile isAlnumChar)) := by
  have h1 : read_next_token src (c :: cs) =
      some (⟨match_keyword (c :: cs.takeWhile isAlnumChar),
             offset src (c :: cs), offset src (cs.dropWhile isAlnumChar),
             if match_keyword (c :: cs.takeWhile isAlnumChar) = Kind.Name
             then TokenValue.String (c :: cs.takeWhile isAlnumChar)
             else TokenValue.none⟩,
            cs.dropWhile isAlnumChar) := by
    rw [rnt_cons_nosep (not_sep_of_letter hc), token_letter hc,
      name_keyword_eq]
  rw [h1] at h
  simp only [Option.some_inj, Prod.mk.injEq] at h
  obtain ⟨ht_eq, _⟩ := h
  subst ht_eq
  have hascii : ∀ d ∈ c :: cs.takeWhile isAlnumChar, d.toNat < 128 := by
    intro d hd
    rcases List.mem_cons.mp hd with rfl | hd'
    · exact toNat_lt_128_of_alnum (by simp [isAlnumChar, hc])
    · exact toNat_lt_128_of_alnum (List.mem_takeWhile_imp hd')
  have hlen_eq : utf8Len (c :: cs.takeWhile isAlnumChar) =
      (c :: cs.takeWhile isAlnumChar).length := utf8Len_ascii hascii
  refine ⟨?_, ?_, ?_⟩
  · rw [isKeywordKind_match_keyword_iff, hlen_eq]
  · intro hk
    have hne : match_keyword (c :: cs.takeWhile isAlnumChar) ≠ Kind.Name := by
      intro he
      rw [he] at hk
      simp [isKeywordKind] at hk
    simp only [if_neg hne]
  · intro hk
    have hname := match_keyword_eq_name_of_not_keyword hk
    exact ⟨hname, by simp only [if_pos hname]⟩

/-- Witness for C5 at the concrete input `"if"`. -/
theorem claim5_witness :
    (isKeywordKind (⟨Kind.If, 0, 2, TokenValue.none⟩ : Token).kind = true ↔
      ('i' :: List.takeWhile isAlnumChar ['f']) ∈ KEYWORD_TABLE.map Prod.fst ∧
        2 ≤ ('i' :: List.takeWhile isAlnumChar ['f']).length ∧
        ('i' :: List.takeWhile isAlnumChar ['f']).length ≤ 10) ∧
    (isKeywordKind (⟨Kind.If, 0, 2, TokenValue.none⟩ : Token).kind = true →
      (⟨Kind.If, 0, 2, TokenValue.none⟩ : Token).value = TokenValue.none) ∧
    (isKeywordKind (⟨Kind.If, 0, 2, TokenValue.none⟩ : Token).kind = false →
      (⟨Kind.If, 0, 2, TokenValue.none⟩ : Token).kind = Kind.Name ∧
      (⟨Kind.If, 0, 2, TokenValue.none⟩ : Token).value =
        TokenValue.String ('i' :: List.takeWhile isAlnumChar ['f'])) :=
  claim5_keyword_classification "if".data 'i' ['f']
    ⟨Kind.If, 0, 2, TokenValue.none⟩ [] (by decide)
    (by rw [← read_next_tokenF_eq 3 _ _ (by decide)]; decide)

/-- Claim C7: whenever the cursor stands at a `/` — whether or not `*`
follows — `read_next_token` hands the rest of the input to the
slash-comment skipper, and that skipper (the 3-state machine
`Slash → Star → Other`) discards everything up to and including the
first `*/` pair, or the whole input if there is none. -/
theorem claim7_slash_comment (st : Lexer) (cs : List Char)
    (h : st.rest = '/' :: cs) :
    Lexer.read_next_token st =
      Lexer.read_next_token ⟨st.src, comment_slashstar cs⟩ ∧
    comment_slashstar cs = dropToStarSlash cs := by
  refine ⟨?_, comment_slashstar_eq_dts cs⟩
  unfold Lexer.read_next_token
  have hcom : comment '/' cs = comment_slashstar cs := by
    unfold comment
    rw [if_neg (by decide), if_pos rfl]
  rw [h, rnt_cons_sep (by decide : isSep '/' = true), hcom]

/-- Witness for C7 at the concrete input `"/*a*/+"`. -/
theorem claim7_witness :
    Lexer.read_next_token ⟨"/*a*/+".data, "/*a*/+".data⟩ =
      Lexer.read_next_token ⟨"/*a*/+".data,
        comment_slashstar "*a*/+".data⟩ ∧
    comment_slashstar "*a*/+".data = dropToStarSlash "*a*/+".data :=
  claim7_slash_comment ⟨"/*a*/+".data, "/*a*/+".data⟩ "*a*/+".data rfl

/-- Counterexample to claim C8 as stated: on the source `"+ é"` (bytes
`[43, 32, 195, 169]`) the `Plus` token is given the span `[1, 2)`,
which covers exactly the whitespace byte 32 — an emitted token's span
covers whitespace-only text. -/
theorem claim8_counterexample :
    Lexer.analyze (Lexer.new ['+', ' ', 'é']) =
      some [⟨Kind.Plus, 1, 2, TokenValue.none⟩,
            ⟨Kind.Unknown, 3, 4, TokenValue.String ['é']⟩,
            ⟨Kind.Eof, 4, 4, TokenValue.none⟩] ∧
    utf8Bytes ['+', ' ', 'é'] = [43, 32, 195, 169] ∧
    ((utf8Bytes ['+', ' ', 'é']).drop 1).take 1 = [' '.toNat] := by
  refine ⟨?_, by decide, by decide⟩
  rw [Lexer.analyze, Lexer.new, ← analyzeF_eq 4 _ _ (by decide)]
  decide

/-- Claim C8 (amended): in every full-scan output, tokens are ordered
with `t.end ≤ next.start` (hence non-decreasing starts and no
overlap), all spans satisfy `start ≤ end ≤ len`; and for all-ASCII
sources (where the computed offsets are true byte offsets) every
non-`Eof` token's span `[start, end)` slices out of the source exactly
the characters consumed by that token's sub-scanner: the source suffix
at `start` begins with the token's non-separator dispatch character,
the suffix at `end` is precisely what that `token` call left
unconsumed, and the span slice re-appended to it restores the suffix
at `start`.  Whitespace and comments are consumed by the skipper
before `start` and never inside a `token` call, so no span covers
whitespace-only or comment-only text. -/
theorem claim8_spans_ordered (src : List Char) (ts : List Token)
    (h : Lexer.analyze (Lexer.new src) = some ts) :
    List.Chain' (fun a b => a.endPos ≤ b.start) ts ∧
    (∀ t ∈ ts, t.start ≤ t.endPos ∧ t.endPos ≤ utf8Len src) ∧
    ((∀ c ∈ src, c.toNat < 128) → ∀ t ∈ ts, t.kind ≠ Kind.Eof →
      ∃ c cs rest', src.drop t.start = c :: cs ∧ isSep c = false ∧
        token c cs = some ((t.kind, t.value), rest') ∧
        src.drop t.endPos = rest' ∧
        (src.drop t.start).take (t.endPos - t.start) ++ src.drop t.endPos =
          src.drop t.start) := by
  have h' : analyze src src = some ts := h
  obtain ⟨_, hchain, hbounds, hfiller⟩ :=
    analyze_spec src.length src src ts (Nat.le_refl _) h'
  refine ⟨hchain, fun t ht => ⟨(hbounds t ht).2.1, (hbounds t ht).2.2⟩, ?_⟩
  intro hascii t ht hne
  obtain ⟨c, cs, rest', hsuf, hsep, hstart, htok, hend, hrest'⟩ :=
    hfiller t ht hne
  have hlenA : utf8Len src = src.length := utf8Len_ascii hascii
  have hrest'ccs : rest' <:+ c :: cs := hrest'.trans (List.suffix_cons c cs)
  have hrest'src : rest' <:+ src := hrest'ccs.trans hsuf
  have hdrop1 : src.drop t.start = c :: cs := by
    rw [hstart, offset, hlenA]
    exact suffix_drop_eq hsuf
  have hdrop2 : src.drop t.endPos = rest' := by
    rw [hend, offset, hlenA]
    exact suffix_drop_eq hrest'src
  refine ⟨c, cs, rest', hdrop1, hsep, htok, hdrop2, ?_⟩
  rw [hdrop1, hdrop2]
  have hspan : t.endPos - t.start = (c :: cs).length - rest'.length := by
    rw [hstart, hend, offset, offset, hlenA]
    have h1 : (c :: cs).length ≤ src.length := hsuf.length_le
    have h2 : rest'.length ≤ (c :: cs).length := hrest'ccs.length_le
    omega
  rw [hspan]
  exact suffix_take_append hrest'ccs

/-- Witness for C8 at the concrete input `"x y"`. -/
theorem claim8_witness :
    List.Chain' (fun a b => a.endPos ≤ b.start)
      ([⟨Kind.Name, 0, 1, TokenValue.String ['x']⟩,
        ⟨Kind.Name, 2, 3, TokenValue.String ['y']⟩,
        ⟨Kind.Eof, 3, 3, TokenValue.none⟩] : List Token) ∧
    (∀ t ∈ ([⟨Kind.Name, 0, 1, TokenValue.String ['x']⟩,
        ⟨Kind.Name, 2, 3, TokenValue.String ['y']⟩,
        ⟨Kind.Eof, 3, 3, TokenValue.none⟩] : List Token),
      t.start ≤ t.endPos ∧ t.endPos ≤ utf8Len "x y".data) ∧
    ((∀ c ∈ "x y".data, c.toNat < 128) →
      ∀ t ∈ ([⟨Kind.Name, 0, 1, TokenValue.String ['x']⟩,
        ⟨Kind.Name, 2, 3, TokenValue.String ['y']⟩,
        ⟨Kind.Eof, 3, 3, TokenValue.none⟩] : List Token),
        t.kind ≠ Kind.Eof →
        ∃ c cs rest', "x y".data.drop t.start = c :: cs ∧ isSep c = false ∧
          token c cs = some ((t.kind, t.value), rest') ∧
          "x y".data.drop t.endPos = rest' ∧
          ("x y".data.drop t.start).take (t.endPos - t.start) ++
              "x y".data.drop t.endPos = "x y".data.drop t.start) :=
  claim8_spans_ordered "x y".data
    [⟨Kind.Name, 0, 1, TokenValue.String ['x']⟩,
     ⟨Kind.Name, 2, 3, TokenValue.String ['y']⟩,
     ⟨Kind.Eof, 3, 3, TokenValue.none⟩]
    (by rw [Lexer.analyze, Lexer.new, ← analyzeF_eq 4 _ _ (by decide)]; decide)

/-- Claim C9: the single-step scan never re-reads consumed characters
(the new remaining suffix is a suffix of the old one, the source is
untouched), and once the input is exhausted every call returns the
same end-of-input token at offset `(len, len)` with an unchanged
state — hence equivalent `Eof` tokens forever. -/
theorem claim9_cursor_monotone (st : Lexer) (t : Token) (st' : Lexer)
    (h : Lexer.read_next_token st = some (t, st')) :
    st'.src = st.src ∧ st'.rest <:+ st.rest ∧
    (st.rest = [] →
      t = ⟨Kind.Eof, utf8Len st.src, utf8Len st.src, TokenValue.none⟩ ∧
      st' = st) := by
  rw [Lexer.read_next_token] at h
  rcases hr : read_next_token st.src st.rest with _ | ⟨t0, r0⟩
  · rw [hr] at h
    cases h
  · rw [hr] at h
    simp only [Option.map_some', Option.some_inj, Prod.mk.injEq] at h
    obtain ⟨ht0, hst'⟩ := h
    subst ht0
    subst hst'
    refine ⟨rfl, (rnt_spec st.rest.length st.src st.rest t0 r0
      (Nat.le_refl _) hr).1, ?_⟩
    intro hnil
    rw [hnil, rnt_nil] at hr
    simp only [Option.some_inj, Prod.mk.injEq] at hr
    obtain ⟨ht0, hr0⟩ := hr
    subst hr0
    refine ⟨ht0.symm, ?_⟩
    cases st with
    | mk s r =>
        simp only at hnil
        subst hnil
        rfl

/-- Witness for C9 at the exhausted state over the empty source. -/
theorem claim9_witness :
    (Lexer.new []).src = (Lexer.new []).src ∧
    (Lexer.new []).rest <:+ (Lexer.new []).rest ∧
    ((Lexer.new []).rest = [] →
      (⟨Kind.Eof, 0, 0, TokenValue.none⟩ : Token) =
        ⟨Kind.Eof, utf8Len (Lexer.new []).src, utf8Len (Lexer.new []).src,
          TokenValue.none⟩ ∧
      Lexer.new [] = Lexer.new []) :=
  claim9_cursor_monotone (Lexer.new []) ⟨Kind.Eof, 0, 0, TokenValue.none⟩
    (Lexer.new []) (by
      rw [Lexer.read_next_token]
      simp only [Lexer.new]
      rw [rnt_nil]
      rfl)

end Scan3
